import Mathlib

/-!
Shallow embedding of the geometry kernel of the leaflet-ts repository
(Point, Bounds, Transformation, LatLng, Util.wrapNum, LineUtil, PolyUtil,
and the ellipsoidal-Mercator inverse-projection loop), together with
theorems settling the specification claims about it.

JavaScript `number` values are modelled by `ℚ` wherever the code only
performs field arithmetic and comparisons; where NaN / Infinity behaviour
is itself the subject of a claim (LatLng construction) an explicit
`JsNumber` type with the IEEE special values is used.
-/

namespace LeafletTS

/-- Planar point, from `src/geometry/Point.ts` (`class Point`).  Coordinates
are modelled as rationals. -/
structure Point where
  x : ℚ
  y : ℚ
deriving DecidableEq, Repr

/-- JavaScript `Math.round`: round half towards positive infinity. -/
def jsRound (q : ℚ) : ℚ := (⌊q + 1/2⌋ : ℤ)

/-- The `Point` constructor `new Point(x, y, round)`: rounds both
coordinates when `round` is true. -/
def Point.make (x y : ℚ) (round : Bool) : Point :=
  if round then ⟨jsRound x, jsRound y⟩ else ⟨x, y⟩

/-- Truncation towards zero, JavaScript's `ToInteger` used by the `%`
operator on numbers. -/
def ratTrunc (q : ℚ) : ℤ := if 0 ≤ q then ⌊q⌋ else ⌈q⌉

/-- JavaScript remainder operator `x % d` on finite numbers (sign follows
the dividend): `x - d * trunc(x / d)`. -/
def jsMod (x d : ℚ) : ℚ := x - d * ratTrunc (x / d)

/-- From `src/core/Util.ts`: `wrapNum(x, range, includeMax)`.  The range
array `[min, max]` is passed as a pair `(min, max)`. -/
def wrapNum (x : ℚ) (range : ℚ × ℚ) (includeMax : Bool) : ℚ :=
  let max := range.2
  let min := range.1
  let d := max - min
  if x = max ∧ includeMax then x else jsMod (jsMod (x - min) d + d) d + min

/-- From `src/geometry/Transformation.ts`: affine transformation
coefficients `(_a, _b, _c, _d)`. -/
structure Transformation where
  a : ℚ
  b : ℚ
  c : ℚ
  d : ℚ
deriving DecidableEq, Repr

/-- `Transformation.transform(point, scale)` (the non-destructive wrapper
around `_transform`): `(scale·(a·x+b), scale·(c·y+d))`. -/
def Transformation.transform (t : Transformation) (p : Point) (scale : ℚ) : Point :=
  ⟨scale * (t.a * p.x + t.b), scale * (t.c * p.y + t.d)⟩

/-- `Transformation.untransform(point, scale)`:
`((x/scale − b)/a, (y/scale − d)/c)`. -/
def Transformation.untransform (t : Transformation) (p : Point) (scale : ℚ) : Point :=
  ⟨(p.x / scale - t.b) / t.a, (p.y / scale - t.d) / t.c⟩

/-- From `src/geometry/Bounds.ts` (second half of `src/geometry/Point.ts`
in the observed bundle): `class Bounds`.  `min` and `max` start undefined
(the class uses definite-assignment assertions) and are set by the first
`extend`; this is modelled with `Option`. -/
structure Bounds where
  min? : Option Point
  max? : Option Point
deriving DecidableEq, Repr

/-- `Bounds.extend(point)`: first extension initialises `min`/`max` to a
clone of the point, later ones take component-wise min/max. -/
def Bounds.extend (b : Bounds) (p : Point) : Bounds :=
  match b.min?, b.max? with
  | some mn, some mx =>
      ⟨some ⟨min p.x mn.x, min p.y mn.y⟩, some ⟨max p.x mx.x, max p.y mx.y⟩⟩
  | _, _ => ⟨some p, some p⟩

/-- `Bounds.isValid()`: both corners present. -/
def Bounds.isValid (b : Bounds) : Bool := b.min?.isSome && b.max?.isSome

/-- A JavaScript `number` with its IEEE-754 special values made explicit
(finite values modelled as rationals), for the parts of the code whose
behaviour on NaN / Infinity is under scrutiny. -/
inductive JsNumber where
  | finite (q : ℚ)
  | nan
  | posInf
  | negInf
deriving DecidableEq, Repr

/-- `Number.isNaN`. -/
def JsNumber.isNaN : JsNumber → Bool
  | .nan => true
  | _ => false

/-- `Number.isFinite`. -/
def JsNumber.isFinite : JsNumber → Bool
  | .finite _ => true
  | _ => false

/-- From `src/geo/LatLng.ts`: the stored fields of `class LatLng`. -/
structure LatLng where
  lat : JsNumber
  lng : JsNumber
  alt : Option JsNumber
deriving DecidableEq, Repr

/-- The `LatLng` constructor: throws (`Error: Invalid LatLng object`) when
`Number.isNaN(lat) || Number.isNaN(lng)`; otherwise stores `lat`, `lng`
unchanged (unary `+` is the identity on numbers) and `alt` when defined. -/
def LatLng.make (lat lng : JsNumber) (alt : Option JsNumber) :
    Except String LatLng :=
  if lat.isNaN || lng.isNaN then
    .error "Invalid LatLng object"
  else
    .ok ⟨lat, lng, alt⟩

/-- From the LineUtil module (`src/unnamed/part_004`): squared distance
between two points. -/
def sqDist (p1 p2 : Point) : ℚ :=
  let dx := p2.x - p1.x
  let dy := p2.y - p1.y
  dx * dx + dy * dy

/-- Squared length of the segment `p1 → p2`, the value `dot = dx*dx + dy*dy`
computed by `sqClosestPointOnSegment`; the division-by-`dot` branch of that
function is guarded by `dot > 0`. -/
def segDot (p1 p2 : Point) : ℚ :=
  (p2.x - p1.x) * (p2.x - p1.x) + (p2.y - p1.y) * (p2.y - p1.y)

/-- `sqClosestPointOnSegment(p, p1, p2, false)`: the closest point to `p`
on the segment `p1 → p2` (the point-returning mode of the dual-mode
function). -/
def sqClosestPointOnSegmentPt (p p1 p2 : Point) : Point :=
  let x := p1.x
  let y := p1.y
  let dx := p2.x - x
  let dy := p2.y - y
  let dot := dx * dx + dy * dy
  if dot > 0 then
    let t := ((p.x - x) * dx + (p.y - y) * dy) / dot
    if t > 1 then ⟨p2.x, p2.y⟩
    else if t > 0 then ⟨x + dx * t, y + dy * t⟩
    else ⟨x, y⟩
  else ⟨x, y⟩

/-- `sqClosestPointOnSegment(p, p1, p2, true)`: squared distance from `p`
to the closest point on the segment (the distance-returning mode). -/
def sqClosestPointOnSegmentSq (p p1 p2 : Point) : ℚ :=
  let c := sqClosestPointOnSegmentPt p p1 p2
  (p.x - c.x) * (p.x - c.x) + (p.y - c.y) * (p.y - c.y)

/-- `getBitCode(p, bounds)`: Cohen–Sutherland outcode of `p` relative to a
valid bounds, passed as its two corners `bmin`, `bmax`.  Bit 1 = left,
bit 2 = right, bit 4 = bottom (`y < min.y`), bit 8 = top (`y > max.y`). -/
def getBitCode (p : Point) (bmin bmax : Point) : Nat :=
  let code0 : Nat :=
    if p.x < bmin.x then 1
    else if p.x > bmax.x then 2
    else 0
  if p.y < bmin.y then code0 ||| 4
  else if p.y > bmax.y then code0 ||| 8
  else code0

/-- `getEdgeIntersection(a, b, code, bounds, round)`: intersection of the
segment `a → b` with the single boundary line named by `code`, priority
top(8) > bottom(4) > right(2) > left(1).  With `code = 0` no branch fires
and the zero-initialised `(0,0)` is returned, as in the source.  (In the
source a division whose denominator is zero would yield ±Infinity/NaN;
every theorem below reaches this function only with a non-degenerate or
absent division.) -/
def getEdgeIntersection (a b : Point) (code : Nat) (bmin bmax : Point)
    (round : Bool) : Point :=
  let dx := b.x - a.x
  let dy := b.y - a.y
  if code &&& 8 ≠ 0 then
    Point.make (a.x + dx * (bmax.y - a.y) / dy) bmax.y round
  else if code &&& 4 ≠ 0 then
    Point.make (a.x + dx * (bmin.y - a.y) / dy) bmin.y round
  else if code &&& 2 ≠ 0 then
    Point.make bmax.x (a.y + dy * (bmax.x - a.x) / dx) round
  else if code &&& 1 ≠ 0 then
    Point.make bmin.x (a.y + dy * (bmin.x - a.x) / dx) round
  else
    Point.make 0 0 round

/-- Result of `clipSegment`: either a clipped pair of endpoints or the
`false` "no segment" value. -/
inductive ClipResult where
  | segment (a b : Point)
  | noSegment
deriving DecidableEq, Repr

/-- The `while` loop of `clipSegment`, made total with explicit fuel
(`none` = the loop has not exited within `fuel` iterations).  The loop
condition is the source's `!(codeA | codeB) || codeA & codeB`, and
`codeA || codeB` is JavaScript's value-returning disjunction. -/
def clipLoop (bmin bmax : Point) (round : Bool) :
    Nat → Point → Point → Nat → Nat → Option (Point × Point × Nat × Nat)
  | 0, _, _, _, _ => none
  | fuel + 1, a, b, codeA, codeB =>
    if (codeA ||| codeB) = 0 ∨ codeA &&& codeB ≠ 0 then
      let codeOut := if codeA ≠ 0 then codeA else codeB
      let p := getEdgeIntersection a b codeOut bmin bmax round
      let newCode := getBitCode p bmin bmax
      if codeOut = codeA then
        clipLoop bmin bmax round fuel p b newCode codeB
      else
        clipLoop bmin bmax round fuel a p codeA newCode
    else
      some (a, b, codeA, codeB)

/-- `clipSegment(a, b, bounds, useLastCode, round)`.  The module-level
mutable `lastCode` cache is threaded explicitly: it comes in as `lastCode`
and the updated value (`codeB`) is returned alongside the result.  The
outer `Option` is the loop fuel (`none` = the source's loop does not
terminate within `fuel` iterations).  After the loop the source tests
trivial accept, then trivial reject, then falls through to `return
false`. -/
def clipSegment (fuel : Nat) (a b : Point) (bmin bmax : Point)
    (useLastCode : Bool) (round : Bool) (lastCode : Nat) :
    Option ClipResult × Nat :=
  let codeA := if useLastCode then lastCode else getBitCode a bmin bmax
  let codeB := getBitCode b bmin bmax
  match clipLoop bmin bmax round fuel a b codeA codeB with
  | none => (none, codeB)
  | some (a', b', cA, cB) =>
    (some (if (cA ||| cB) = 0 then ClipResult.segment a' b'
           else if cA &&& cB ≠ 0 then ClipResult.noSegment
           else ClipResult.noSegment), codeB)

/-- A polygon vertex carrying its cached `_code` field, from the PolyUtil
module (`src/unnamed/part_003`, `interface PointWithCode`). -/
structure CPoint where
  pt : Point
  code : Nat
deriving DecidableEq, Repr

/-- One pass of `clipPolygon` over a single half-plane `edge`: the inner
`for` loop over edges `(a, b) = (inputPoints[i], inputPoints[j])` with
`j = i-1` cyclically, emitting points in `i` order. -/
def clipEdgePass (edge : Nat) (bmin bmax : Point) (round : Bool)
    (ipts : List CPoint) : List CPoint :=
  let len := ipts.length
  (List.range len).flatMap fun i =>
    let j := if i = 0 then len - 1 else i - 1
    let a := ipts.getD i ⟨⟨0, 0⟩, 0⟩
    let b := ipts.getD j ⟨⟨0, 0⟩, 0⟩
    if a.code &&& edge = 0 then
      (if b.code &&& edge ≠ 0 then
        let p := getEdgeIntersection b.pt a.pt edge bmin bmax round
        [CPoint.mk p (getBitCode p bmin bmax)]
      else []) ++ [a]
    else if b.code &&& edge = 0 then
      let p := getEdgeIntersection b.pt a.pt edge bmin bmax round
      [CPoint.mk p (getBitCode p bmin bmax)]
    else []

/-- `clipPolygon(points, bounds, round)`: Sutherland–Hodgman clipping,
half-planes processed in the order `edges = [1, 4, 2, 8]`; each point is
first tagged with its outcode.  The source returns the `PointWithCode`
array; the carried points are its `Point` content. -/
def clipPolygon (points : List Point) (bmin bmax : Point) (round : Bool) :
    List CPoint :=
  let ipts : List CPoint := points.map fun p => ⟨p, getBitCode p bmin bmax⟩
  [1, 4, 2, 8].foldl (fun pts e => clipEdgePass e bmin bmax round pts) ipts

/-- The loop body of `reducePoints`: indices `1 … len-1` in order, state
`(reducedPoints, prev)`. -/
def reduceAux (points : List Point) (sqTolerance : ℚ) :
    List Nat → Nat → List Point → List Point × Nat
  | [], prev, acc => (acc, prev)
  | i :: rest, prev, acc =>
    if sqDist (points.getD i ⟨0, 0⟩) (points.getD prev ⟨0, 0⟩) > sqTolerance then
      reduceAux points sqTolerance rest i (acc ++ [points.getD i ⟨0, 0⟩])
    else
      reduceAux points sqTolerance rest prev acc

/-- `reducePoints(points, sqTolerance)`: vertex reduction, stage 1 of
`simplify`.  Callers guarantee `points` is non-empty (the `simplify`
entry point returns early on an empty input). -/
def reducePoints (points : List Point) (sqTolerance : ℚ) : List Point :=
  let len := points.length
  let r := reduceAux points sqTolerance (List.range' 1 (len - 1)) 0
    [points.getD 0 ⟨0, 0⟩]
  if r.2 < len - 1 then r.1 ++ [points.getD (len - 1) ⟨0, 0⟩] else r.1

/-- The scan `for (i = first+1; i <= last-1; i++)` of `simplifyDPStep`,
tracking the running `(index, maxSqDist)` (with `index !== null` as
`Option`); the update is taken on strict improvement `sqDist > maxSqDist`. -/
def findMaxAux (points : List Point) (pf pl : Point) :
    List Nat → Option Nat → ℚ → Option Nat × ℚ
  | [], idx, mx => (idx, mx)
  | i :: rest, idx, mx =>
    let d := sqClosestPointOnSegmentSq (points.getD i ⟨0, 0⟩) pf pl
    if d > mx then findMaxAux points pf pl rest (some i) d
    else findMaxAux points pf pl rest idx mx

/-- `simplifyDPStep(points, markers, sqTolerance, first, last)`: the
Douglas–Peucker recursion, marking kept indices in `markers`.  The
recursion is made structural with fuel; since the split index satisfies
`first < index < last`, a fuel of `last - first` already suffices, and the
top-level call passes `points.length`. -/
def simplifyDPStep (points : List Point) (sqTolerance : ℚ) :
    Nat → List Bool → Nat → Nat → List Bool
  | 0, markers, _, _ => markers
  | fuel + 1, markers, first, last =>
    match findMaxAux points (points.getD first ⟨0, 0⟩)
        (points.getD last ⟨0, 0⟩)
        (List.range' (first + 1) (last - first - 1)) none 0 with
    | (some index, maxSqDist) =>
      if maxSqDist > sqTolerance then
        let m1 := markers.set index true
        let m2 := simplifyDPStep points sqTolerance fuel m1 first index
        simplifyDPStep points sqTolerance fuel m2 index last
      else markers
    | (none, _) => markers

/-- The final collection loop of `simplifyDP`: keep `points[i]` when
`markers[i]` is set. -/
def maskFilter : List Point → List Bool → List Point
  | [], _ => []
  | _ :: _, [] => []
  | p :: ps, m :: ms =>
    if m then p :: maskFilter ps ms else maskFilter ps ms

/-- `simplifyDP(points, sqTolerance)`: allocate a zeroed marker array,
mark both endpoints, run the recursion, collect the marked points. -/
def simplifyDP (points : List Point) (sqTolerance : ℚ) : List Point :=
  let len := points.length
  let markers := ((List.replicate len false).set 0 true).set (len - 1) true
  let m := simplifyDPStep points sqTolerance len markers 0 (len - 1)
  maskFilter points m

/-- `simplify(points, tolerance)`: early return of a copy when `tolerance`
is falsy (`0` in this rational model) or the input is empty, else vertex
reduction followed by Douglas–Peucker, both against `tolerance²`. -/
def simplify (points : List Point) (tolerance : ℚ) : List Point :=
  if tolerance = 0 ∨ points = [] then points
  else
    let sqTolerance := tolerance * tolerance
    simplifyDP (reducePoints points sqTolerance) sqTolerance

/-- The refinement loop of the ellipsoidal `Mercator.unproject`
(`src/src/geo/projection/Projection.Mercator.ts`):
`for (i = 0, dphi = 0.1; i < 15 && |dphi| > 1e-7; i++) { dphi = …; phi += dphi }`.
The per-iteration delta `dphi = π/2 − 2·atan(ts·((1−e·sin φ)/(1+e·sin φ))^(e/2)) − φ`
is transcendental, so it is abstracted as a function `dphiOf` of the
current `phi`; the loop structure (budget, early stop, returned state) is
embedded literally and the theorems below hold for every `dphiOf`, hence
for the source's.  Returns the final `phi` with the number of iterations
executed. -/
def mercLoop (dphiOf : ℚ → ℚ) : Nat → ℚ → ℚ → Nat → ℚ × Nat
  | 0, phi, _, count => (phi, count)
  | fuel + 1, phi, dphi, count =>
    if |dphi| > 1 / 10000000 then
      let d := dphiOf phi
      mercLoop dphiOf fuel (phi + d) d (count + 1)
    else (phi, count)

/-- The `unproject` iteration entry: budget 15, initial `dphi = 0.1`,
starting from the spherical estimate `phi0`. -/
def mercUnprojectPhi (dphiOf : ℚ → ℚ) (phi0 : ℚ) : ℚ × Nat :=
  mercLoop dphiOf 15 phi0 (1 / 10) 0

/-- A sequence of `Bounds.extend` calls, folded left over the points in call
order. -/
def Bounds.extendAll (b : Bounds) (ps : List Point) : Bounds :=
  ps.foldl Bounds.extend b

/-- Claim C7: for every Transformation with `a ≠ 0` and `c ≠ 0`, every point
`p` and every scale `s ≠ 0`, `untransform (transform p s) s = p` exactly. -/
theorem transformation_untransform_transform (t : Transformation) (p : Point)
    (s : ℚ) (ha : t.a ≠ 0) (hc : t.c ≠ 0) (hs : s ≠ 0) :
    t.untransform (t.transform p s) s = p := by
  cases p with
  | mk px py =>
    simp only [Transformation.transform, Transformation.untransform,
      Point.mk.injEq]
    constructor
    · field_simp
    · field_simp

theorem transformation_untransform_transform_witness :
    ((1 : ℚ) ≠ 0 ∧ (3 : ℚ) ≠ 0 ∧ (2 : ℚ) ≠ 0) ∧
      (Transformation.mk 1 2 3 4).untransform
        ((Transformation.mk 1 2 3 4).transform ⟨5, 6⟩ 2) 2 = ⟨5, 6⟩ :=
  ⟨⟨by norm_num, by norm_num, by norm_num⟩,
    transformation_untransform_transform ⟨1, 2, 3, 4⟩ ⟨5, 6⟩ 2
      (by norm_num) (by norm_num) (by norm_num)⟩

/-- Counterexample to claim C2 as stated: `new LatLng(Infinity, 0)` does not
fail although `Infinity` is not a finite number, because the constructor only
tests `Number.isNaN`. -/
theorem latLng_infinite_accepted :
    LatLng.make JsNumber.posInf (JsNumber.finite 0) none =
        Except.ok ⟨JsNumber.posInf, JsNumber.finite 0, none⟩ ∧
      JsNumber.isFinite JsNumber.posInf = false := by
  constructor
  · rfl
  · rfl

/-- Claim C2 (amended): LatLng construction fails if and only if lat or lng
is NaN; every non-NaN input (including positive and negative Infinity)
succeeds, with the fields stored unchanged and unclamped. -/
theorem latLng_make_spec (lat lng : JsNumber) (alt : Option JsNumber) :
    ((∃ e, LatLng.make lat lng alt = Except.error e) ↔
      lat.isNaN = true ∨ lng.isNaN = true) ∧
    ∀ ll, LatLng.make lat lng alt = Except.ok ll →
      ll.lat = lat ∧ ll.lng = lng ∧ ll.alt = alt := by
  unfold LatLng.make
  by_cases h : (lat.isNaN || lng.isNaN) = true
  · simp [h]
    exact Bool.or_eq_true_iff.mp h
  · simp [h]
    simp only [Bool.or_eq_true_iff, not_or, Bool.not_eq_true] at h
    exact h

theorem latLng_make_spec_witness :
    LatLng.make (JsNumber.finite 3) (JsNumber.finite 4) none =
        Except.ok ⟨JsNumber.finite 3, JsNumber.finite 4, none⟩ ∧
      (LatLng.mk (JsNumber.finite 3) (JsNumber.finite 4) none).lat =
          JsNumber.finite 3 ∧
        (LatLng.mk (JsNumber.finite 3) (JsNumber.finite 4) none).lng =
            JsNumber.finite 4 ∧
          (LatLng.mk (JsNumber.finite 3) (JsNumber.finite 4) none).alt =
            none :=
  ⟨rfl,
    (latLng_make_spec (JsNumber.finite 3) (JsNumber.finite 4) none).2
      ⟨JsNumber.finite 3, JsNumber.finite 4, none⟩ rfl⟩

/-- Claim C10: on a degenerate segment `p1 = p2` the squared length `dot` is
zero, so the guarded division branch is not taken and the closest point is
`p1` itself; the squared distance mode returns the squared Euclidean
distance from `p` to `p1`, hence `pointToSegmentDistance(p, p1, p1)`
(its square root) is the Euclidean distance from `p` to `p1`. -/
theorem sqClosestPointOnSegment_degenerate (p p1 : Point) :
    sqClosestPointOnSegmentPt p p1 p1 = p1 ∧
      ¬ 0 < segDot p1 p1 ∧
        sqClosestPointOnSegmentSq p p1 p1 = sqDist p1 p ∧
          Real.sqrt (sqClosestPointOnSegmentSq p p1 p1) =
            Real.sqrt (sqDist p1 p) := by
  have hpt : sqClosestPointOnSegmentPt p p1 p1 = p1 := by
    simp [sqClosestPointOnSegmentPt]
  have hsq : sqClosestPointOnSegmentSq p p1 p1 = sqDist p1 p := by
    unfold sqClosestPointOnSegmentSq sqDist
    rw [hpt]
  exact ⟨hpt, by simp [segDot], hsq, by rw [hsq]⟩

theorem sqClosestPointOnSegment_degenerate_witness :
    sqClosestPointOnSegmentPt ⟨5, 5⟩ ⟨1, 2⟩ ⟨1, 2⟩ = ⟨1, 2⟩ ∧
      ¬ 0 < segDot ⟨1, 2⟩ ⟨1, 2⟩ ∧
        sqClosestPointOnSegmentSq ⟨5, 5⟩ ⟨1, 2⟩ ⟨1, 2⟩ =
            sqDist ⟨1, 2⟩ ⟨5, 5⟩ ∧
          Real.sqrt (sqClosestPointOnSegmentSq ⟨5, 5⟩ ⟨1, 2⟩ ⟨1, 2⟩) =
            Real.sqrt (sqDist ⟨1, 2⟩ ⟨5, 5⟩) :=
  sqClosestPointOnSegment_degenerate ⟨5, 5⟩ ⟨1, 2⟩

/-- The iteration counter of `mercLoop` grows by at most the remaining
fuel. -/
theorem mercLoop_count_le (dphiOf : ℚ → ℚ) :
    ∀ fuel phi dphi count,
      (mercLoop dphiOf fuel phi dphi count).2 ≤ count + fuel := by
  intro fuel
  induction fuel with
  | zero => intro phi dphi count; simp [mercLoop]
  | succ n ih =>
    intro phi dphi count
    simp only [mercLoop]
    split
    · exact le_trans (ih (phi + dphiOf phi) (dphiOf phi) (count + 1)) (by omega)
    · exact Nat.le_add_right count (n + 1)

/-- Claim C8: for every per-iteration delta function (hence for the
transcendental one of the source), the ellipsoidal `unproject` refinement
executes at most 15 iterations; it stops immediately, returning the current
`phi`, as soon as the previous delta's absolute value is at most `1e-7`;
and when the budget is exhausted it likewise returns the current best
estimate rather than failing, so the loop is total. -/
theorem mercator_unproject_loop_spec (dphiOf : ℚ → ℚ) (phi0 : ℚ) :
    (mercUnprojectPhi dphiOf phi0).2 ≤ 15 ∧
      (∀ fuel phi dphi count, |dphi| ≤ 1 / 10000000 →
        mercLoop dphiOf (fuel + 1) phi dphi count = (phi, count)) ∧
      ∀ phi dphi count, mercLoop dphiOf 0 phi dphi count = (phi, count) := by
  refine ⟨?_, ?_, ?_⟩
  · simpa [mercUnprojectPhi] using mercLoop_count_le dphiOf 15 phi0 (1 / 10) 0
  · intro fuel phi dphi count h
    simp only [mercLoop]
    split
    · rename_i hc
      exact absurd hc (not_lt.mpr h)
    · rfl
  · intro phi dphi count
    simp [mercLoop]

theorem mercator_unproject_loop_spec_witness :
    ((mercUnprojectPhi (fun _ => 0) 0).2 ≤ 15 ∧
        |(0 : ℚ)| ≤ 1 / 10000000) ∧
      mercLoop (fun _ => 0) 3 5 0 7 = (5, 7) :=
  ⟨⟨(mercator_unproject_loop_spec (fun _ => 0) 0).1, by norm_num⟩,
    (mercator_unproject_loop_spec (fun _ => 0) 0).2.1 2 5 0 7 (by norm_num)⟩

/-- Claim C6: once a Bounds is valid, any sequence of `extend` calls only
ever moves `min` down and `max` up component-wise, and preserves the
invariant `min.x ≤ max.x ∧ min.y ≤ max.y`. -/
theorem bounds_extend_monotonic (b : Bounds) (mn mx : Point) (ps : List Point)
    (hmin : b.min? = some mn) (hmax : b.max? = some mx) :
    ∃ mn2 mx2,
      (b.extendAll ps).min? = some mn2 ∧ (b.extendAll ps).max? = some mx2 ∧
        mn2.x ≤ mn.x ∧ mn2.y ≤ mn.y ∧ mx.x ≤ mx2.x ∧ mx.y ≤ mx2.y ∧
          (mn.x ≤ mx.x → mn2.x ≤ mx2.x) ∧ (mn.y ≤ mx.y → mn2.y ≤ mx2.y) := by
  induction ps generalizing b mn mx with
  | nil =>
    exact ⟨mn, mx, hmin, hmax, le_refl _, le_refl _, le_refl _, le_refl _,
      fun h => h, fun h => h⟩
  | cons p rest ih =>
    have hstep : b.extend p =
        ⟨some ⟨min p.x mn.x, min p.y mn.y⟩, some ⟨max p.x mx.x, max p.y mx.y⟩⟩ := by
      simp [Bounds.extend, hmin, hmax]
    have hall : Bounds.extendAll b (p :: rest) = Bounds.extendAll (b.extend p) rest := by
      simp [Bounds.extendAll]
    obtain ⟨mn2, mx2, h1, h2, h3, h4, h5, h6, h7, h8⟩ :=
      ih (b.extend p) ⟨min p.x mn.x, min p.y mn.y⟩ ⟨max p.x mx.x, max p.y mx.y⟩
        (by rw [hstep]) (by rw [hstep])
    refine ⟨mn2, mx2, by rwa [hall], by rwa [hall], ?_, ?_, ?_, ?_, ?_, ?_⟩
    · exact le_trans h3 (min_le_right _ _)
    · exact le_trans h4 (min_le_right _ _)
    · exact le_trans (le_max_right _ _) h5
    · exact le_trans (le_max_right _ _) h6
    · intro hx
      exact h7 (le_trans (min_le_right _ _) (le_trans hx (le_max_right _ _)))
    · intro hy
      exact h8 (le_trans (min_le_right _ _) (le_trans hy (le_max_right _ _)))

theorem bounds_extend_monotonic_witness :
    ((Bounds.mk (some ⟨0, 0⟩) (some ⟨2, 2⟩)).min? = some ⟨0, 0⟩ ∧
        (Bounds.mk (some ⟨0, 0⟩) (some ⟨2, 2⟩)).max? = some ⟨2, 2⟩) ∧
      ∃ mn2 mx2,
        ((Bounds.mk (some ⟨0, 0⟩) (some ⟨2, 2⟩)).extendAll
              [⟨-1, 5⟩, ⟨3, -4⟩]).min? = some mn2 ∧
          ((Bounds.mk (some ⟨0, 0⟩) (some ⟨2, 2⟩)).extendAll
                [⟨-1, 5⟩, ⟨3, -4⟩]).max? = some mx2 ∧
            mn2.x ≤ (0 : ℚ) ∧ mn2.y ≤ (0 : ℚ) ∧ (2 : ℚ) ≤ mx2.x ∧
              (2 : ℚ) ≤ mx2.y ∧
                ((0 : ℚ) ≤ (2 : ℚ) → mn2.x ≤ mx2.x) ∧
                  ((0 : ℚ) ≤ (2 : ℚ) → mn2.y ≤ mx2.y) :=
  ⟨⟨rfl, rfl⟩,
    bounds_extend_monotonic (Bounds.mk (some ⟨0, 0⟩) (some ⟨2, 2⟩))
      ⟨0, 0⟩ ⟨2, 2⟩ [⟨-1, 5⟩, ⟨3, -4⟩] rfl rfl⟩

/-- When the `clipSegment` loop exits normally, its (inverted) condition is
false: the final outcodes satisfy neither trivial accept nor trivial
reject. -/
theorem clipLoop_exit_cond (bmin bmax : Point) (round : Bool) :
    ∀ fuel a b cA cB out,
      clipLoop bmin bmax round fuel a b cA cB = some out →
        ¬((out.2.2.1 ||| out.2.2.2) = 0 ∨ out.2.2.1 &&& out.2.2.2 ≠ 0) := by
  intro fuel
  induction fuel with
  | zero => intro a b cA cB out h; simp [clipLoop] at h
  | succ n ih =>
    intro a b cA cB out h
    simp only [clipLoop] at h
    by_cases hc : (cA ||| cB) = 0 ∨ cA &&& cB ≠ 0
    · rw [if_pos hc] at h
      split at h <;> split at h <;> exact ih _ _ _ _ out h
    · rw [if_neg hc] at h
      obtain rfl : (a, b, cA, cB) = out := Option.some.inj h
      exact hc

/-- Claim C1 (code bug): `clipSegment` never produces the trivial-accept
`[a, b]` result — whenever its loop exits, the returned value is the
"no segment" `false` — and, concretely, on the segment `(2,2) → (3,3)` with
bounds `(1,1) → (10,10)`, where both endpoints have outcode 0, it returns
"no segment" instead of the unchanged pair, because the source's `while`
condition is the negation of the intended one. -/
theorem clipSegment_never_accepts :
    (getBitCode ⟨2, 2⟩ ⟨1, 1⟩ ⟨10, 10⟩ = 0 ∧
        getBitCode ⟨3, 3⟩ ⟨1, 1⟩ ⟨10, 10⟩ = 0 ∧
          clipSegment 10 ⟨2, 2⟩ ⟨3, 3⟩ ⟨1, 1⟩ ⟨10, 10⟩ false false 0 =
            (some ClipResult.noSegment, 0)) ∧
      ∀ fuel (a b bmin bmax : Point) (useLastCode round : Bool)
          (lastCode : Nat) (r : ClipResult) (lc : Nat),
        clipSegment fuel a b bmin bmax useLastCode round lastCode =
            (some r, lc) →
          r = ClipResult.noSegment := by
  constructor
  · refine ⟨by decide, by decide, ?_⟩
    decide
  · intro fuel a b bmin bmax useLastCode round lastCode r lc h
    simp only [clipSegment] at h
    split at h
    · exact absurd (congrArg Prod.fst h) (by simp)
    · rename_i a2 b2 cA cB heq
      have hcond := clipLoop_exit_cond bmin bmax round fuel a b _ _ _ heq
      simp only [not_or, not_not] at hcond
      have hr := congrArg Prod.fst h
      simp only [] at hr
      rw [if_neg hcond.1] at hr
      have h2 := Option.some.inj hr
      split at h2 <;> exact h2.symm

theorem clipSegment_never_accepts_witness :
    clipSegment 10 ⟨2, 2⟩ ⟨3, 3⟩ ⟨1, 1⟩ ⟨10, 10⟩ false false 0 =
        (some ClipResult.noSegment, 0) ∧
      ClipResult.noSegment = ClipResult.noSegment :=
  ⟨clipSegment_never_accepts.1.2.2,
    clipSegment_never_accepts.2 10 ⟨2, 2⟩ ⟨3, 3⟩ ⟨1, 1⟩ ⟨10, 10⟩ false false 0
      ClipResult.noSegment 0 clipSegment_never_accepts.1.2.2⟩

/-- JavaScript remainder with a positive divisor and nonnegative quotient
lands in `[0, d)`. -/
theorem jsMod_nonneg_branch (x d : ℚ) (hd : 0 < d) (hq : 0 ≤ x / d) :
    0 ≤ jsMod x d ∧ jsMod x d < d := by
  unfold jsMod ratTrunc
  rw [if_pos hq]
  have hdx : d * (x / d) = x := by field_simp
  constructor
  · have h1 : (⌊x / d⌋ : ℚ) ≤ x / d := Int.floor_le _
    have h2 : d * (⌊x / d⌋ : ℚ) ≤ d * (x / d) :=
      mul_le_mul_of_nonneg_left h1 (le_of_lt hd)
    rw [hdx] at h2
    linarith
  · have h1 : x / d < (⌊x / d⌋ : ℚ) + 1 := Int.lt_floor_add_one _
    have h2 : d * (x / d) < d * ((⌊x / d⌋ : ℚ) + 1) :=
      mul_lt_mul_of_pos_left h1 hd
    rw [hdx] at h2
    nlinarith

/-- JavaScript remainder with a positive divisor and negative quotient lands
in `(-d, 0]`. -/
theorem jsMod_neg_branch (x d : ℚ) (hd : 0 < d) (hq : x / d < 0) :
    -d < jsMod x d ∧ jsMod x d ≤ 0 := by
  unfold jsMod ratTrunc
  rw [if_neg (not_le.mpr hq)]
  have hdx : d * (x / d) = x := by field_simp
  constructor
  · have h1 : (⌈x / d⌉ : ℚ) < x / d + 1 := Int.ceil_lt_add_one _
    have h2 : d * (⌈x / d⌉ : ℚ) < d * (x / d + 1) :=
      mul_lt_mul_of_pos_left h1 hd
    nlinarith
  · have h1 : x / d ≤ (⌈x / d⌉ : ℚ) := Int.le_ceil _
    have h2 : d * (x / d) ≤ d * (⌈x / d⌉ : ℚ) :=
      mul_le_mul_of_nonneg_left h1 (le_of_lt hd)
    rw [hdx] at h2
    linarith

/-- JavaScript remainder by a positive divisor exceeds `-d`. -/
theorem jsMod_gt_neg (x d : ℚ) (hd : 0 < d) : -d < jsMod x d := by
  by_cases hq : 0 ≤ x / d
  · have := jsMod_nonneg_branch x d hd hq
    linarith [this.1]
  · exact (jsMod_neg_branch x d hd (not_le.mp hq)).1

/-- Claim C4: for `min < max`, `wrapNum` returns `x` unchanged exactly in
the `x = max ∧ includeMax` case; otherwise it computes
`((x−min) % d + d) % d + min` with `d = max−min` and the result lies in
`[min, max)`; concretely `wrapNum(190, [-180,180], true) = -170`. -/
theorem wrapNum_spec (x mn mx : ℚ) (includeMax : Bool) (h : mn < mx) :
    ((x = mx ∧ includeMax = true) → wrapNum x (mn, mx) includeMax = x) ∧
      (¬(x = mx ∧ includeMax = true) →
        wrapNum x (mn, mx) includeMax =
            jsMod (jsMod (x - mn) (mx - mn) + (mx - mn)) (mx - mn) + mn ∧
          mn ≤ wrapNum x (mn, mx) includeMax ∧
            wrapNum x (mn, mx) includeMax < mx) ∧
      wrapNum 190 (-180, 180) true = -170 := by
  have hd : 0 < mx - mn := by linarith
  refine ⟨?_, ?_, by norm_num [wrapNum, jsMod, ratTrunc]⟩
  · intro hcase
    simp only [wrapNum]
    rw [if_pos hcase]
  · intro hcase
    have hval : wrapNum x (mn, mx) includeMax =
        jsMod (jsMod (x - mn) (mx - mn) + (mx - mn)) (mx - mn) + mn := by
      simp only [wrapNum]
      rw [if_neg hcase]
    refine ⟨hval, ?_, ?_⟩
    · rw [hval]
      have hy : 0 < jsMod (x - mn) (mx - mn) + (mx - mn) := by
        have := jsMod_gt_neg (x - mn) (mx - mn) hd
        linarith
      have hq : 0 ≤ (jsMod (x - mn) (mx - mn) + (mx - mn)) / (mx - mn) :=
        le_of_lt (div_pos hy hd)
      have := jsMod_nonneg_branch _ _ hd hq
      linarith [this.1]
    · rw [hval]
      have hy : 0 < jsMod (x - mn) (mx - mn) + (mx - mn) := by
        have := jsMod_gt_neg (x - mn) (mx - mn) hd
        linarith
      have hq : 0 ≤ (jsMod (x - mn) (mx - mn) + (mx - mn)) / (mx - mn) :=
        le_of_lt (div_pos hy hd)
      have := jsMod_nonneg_branch _ _ hd hq
      linarith [this.2]

theorem wrapNum_spec_witness :
    (-180 : ℚ) < 180 ∧
      (¬((190 : ℚ) = 180 ∧ false = true) →
        wrapNum 190 (-180, 180) false =
            jsMod (jsMod ((190 : ℚ) - -180) (180 - -180) + (180 - -180))
              (180 - -180) + -180 ∧
          (-180 : ℚ) ≤ wrapNum 190 (-180, 180) false ∧
            wrapNum 190 (-180, 180) false < 180) :=
  ⟨by norm_num, (wrapNum_spec 190 (-180) 180 false (by norm_num)).2.1⟩

/-- A `flatMap` over `range` whose body yields the singleton at each index
reproduces the list. -/
theorem flatMap_range_getD (d : CPoint) (f : Nat → List CPoint) :
    ∀ l : List CPoint, (∀ i, i < l.length → f i = [l.getD i d]) →
      (List.range l.length).flatMap f = l := by
  intro l
  induction l using List.reverseRecOn with
  | nil => intro _; simp
  | append_singleton l2 x ih =>
    intro hf
    have hlen : (l2 ++ [x]).length = l2.length + 1 := by simp
    rw [hlen, List.range_succ, List.flatMap_append]
    have h1 : (List.range l2.length).flatMap f = l2 := by
      apply ih
      intro i hi
      rw [hf i (by rw [hlen]; omega)]
      congr 1
      rw [List.getD_eq_getElem?_getD, List.getD_eq_getElem?_getD,
        List.getElem?_append_left hi]
    have h2 : [l2.length].flatMap f = [x] := by
      have hx : f l2.length = [(l2 ++ [x]).getD l2.length d] :=
        hf l2.length (by rw [hlen]; omega)
      simp only [List.flatMap_cons, List.flatMap_nil, List.append_nil, hx]
      rw [List.getD_eq_getElem?_getD, List.getElem?_concat_length]
      rfl
    rw [h1, h2]

/-- One Sutherland–Hodgman pass leaves a ring unchanged when every vertex
has outcode 0. -/
theorem clipEdgePass_all_inside (edge : Nat) (bmin bmax : Point)
    (round : Bool) (ipts : List CPoint) (h : ∀ c ∈ ipts, c.code = 0) :
    clipEdgePass edge bmin bmax round ipts = ipts := by
  simp only [clipEdgePass]
  apply flatMap_range_getD ⟨⟨0, 0⟩, 0⟩
  intro i hi
  have hj : (if i = 0 then ipts.length - 1 else i - 1) < ipts.length := by
    split <;> omega
  have hmem : ∀ k, k < ipts.length →
      (ipts[k]?.getD (⟨⟨0, 0⟩, 0⟩ : CPoint)).code = 0 := by
    intro k hk
    rw [List.getElem?_eq_getElem hk, Option.getD_some]
    exact h _ (List.getElem_mem hk)
  have ha := hmem i hi
  have hb := hmem _ hj
  simp only [List.getD_eq_getElem?_getD, ha, hb, Nat.zero_and]
  simp

/-- With every input point strictly inside, `clipPolygon` returns the input
ring, each vertex tagged with outcode 0. -/
theorem clipPolygon_all_inside (points : List Point) (bmin bmax : Point)
    (round : Bool) (h : ∀ p ∈ points, getBitCode p bmin bmax = 0) :
    clipPolygon points bmin bmax round =
      points.map (fun p => ⟨p, 0⟩) := by
  unfold clipPolygon
  have hmap : points.map (fun p => (⟨p, getBitCode p bmin bmax⟩ : CPoint)) =
      points.map (fun p => ⟨p, 0⟩) := by
    apply List.map_congr_left
    intro p hp
    rw [h p hp]
  rw [hmap]
  have hall : ∀ c ∈ points.map (fun p => (⟨p, 0⟩ : CPoint)), c.code = 0 := by
    intro c hc
    obtain ⟨p, _, rfl⟩ := List.mem_map.mp hc
    rfl
  simp only [List.foldl_cons, List.foldl_nil]
  rw [clipEdgePass_all_inside 1 bmin bmax round _ hall,
    clipEdgePass_all_inside 4 bmin bmax round _ hall,
    clipEdgePass_all_inside 2 bmin bmax round _ hall,
    clipEdgePass_all_inside 8 bmin bmax round _ hall]

/-- Claim C9: a ring whose every vertex has outcode 0 is returned by
`clipPolygon` unchanged and in order, for either rounding mode; and a ring
lying entirely outside the bounds yields the empty result rather than an
error. -/
theorem clipPolygon_spec :
    (∀ (points : List Point) (bmin bmax : Point) (round : Bool),
        (∀ p ∈ points, getBitCode p bmin bmax = 0) →
          (clipPolygon points bmin bmax round).map CPoint.pt = points) ∧
      clipPolygon [⟨-5, -5⟩, ⟨-5, 5⟩, ⟨-1, 2⟩] ⟨0, 0⟩ ⟨10, 10⟩ false = [] := by
  constructor
  · intro points bmin bmax round h
    rw [clipPolygon_all_inside points bmin bmax round h, List.map_map]
    simp [Function.comp_def]
  · decide

theorem clipPolygon_spec_witness :
    (∀ p ∈ [Point.mk 2 2, Point.mk 8 2, Point.mk 5 8],
        getBitCode p ⟨0, 0⟩ ⟨10, 10⟩ = 0) ∧
      (clipPolygon [⟨2, 2⟩, ⟨8, 2⟩, ⟨5, 8⟩] ⟨0, 0⟩ ⟨10, 10⟩ false).map
          CPoint.pt = [⟨2, 2⟩, ⟨8, 2⟩, ⟨5, 8⟩] :=
  ⟨by decide,
    clipPolygon_spec.1 [⟨2, 2⟩, ⟨8, 2⟩, ⟨5, 8⟩] ⟨0, 0⟩ ⟨10, 10⟩ false
      (by decide)⟩

/-- The vertex-reduction loop only ever appends to the accumulator. -/
theorem reduceAux_append (points : List Point) (t : ℚ) :
    ∀ idxs prev acc, ∃ s, (reduceAux points t idxs prev acc).1 = acc ++ s := by
  intro idxs
  induction idxs with
  | nil => intro prev acc; exact ⟨[], by simp [reduceAux]⟩
  | cons i rest ih =>
    intro prev acc
    simp only [reduceAux]
    split
    · obtain ⟨s, hs⟩ := ih i (acc ++ [points.getD i ⟨0, 0⟩])
      exact ⟨[points.getD i ⟨0, 0⟩] ++ s, by rw [hs, List.append_assoc]⟩
    · exact ih prev acc

/-- The vertex-reduction loop keeps the invariant that the accumulator ends
with the point at index `prev`. -/
theorem reduceAux_getLast (points : List Point) (t : ℚ) :
    ∀ idxs prev acc, acc.getLast? = some (points.getD prev ⟨0, 0⟩) →
      (reduceAux points t idxs prev acc).1.getLast? =
        some (points.getD (reduceAux points t idxs prev acc).2 ⟨0, 0⟩) := by
  intro idxs
  induction idxs with
  | nil => intro prev acc hacc; simpa [reduceAux] using hacc
  | cons i rest ih =>
    intro prev acc hacc
    simp only [reduceAux]
    split
    · exact ih i (acc ++ [points.getD i ⟨0, 0⟩]) (List.getLast?_concat acc)
    · exact ih prev acc hacc

/-- The vertex-reduction loop keeps `|acc| ≤ prev + 1` when the pending
indices are increasing and above `prev`; the final `prev` is either the
initial one or one of the indices. -/
theorem reduceAux_length (points : List Point) (t : ℚ) :
    ∀ idxs prev acc, (∀ j ∈ idxs, prev < j) →
      List.Pairwise (· < ·) idxs → acc.length ≤ prev + 1 →
      (reduceAux points t idxs prev acc).1.length ≤
          (reduceAux points t idxs prev acc).2 + 1 ∧
        ((reduceAux points t idxs prev acc).2 = prev ∨
          (reduceAux points t idxs prev acc).2 ∈ idxs) := by
  intro idxs
  induction idxs with
  | nil =>
    intro prev acc _ _ hlen
    exact ⟨by simpa [reduceAux] using hlen, Or.inl (by simp [reduceAux])⟩
  | cons i rest ih =>
    intro prev acc hgt hpair hlen
    simp only [reduceAux]
    split
    · have hprev : prev < i := hgt i (List.mem_cons_self i rest)
      have hgt2 : ∀ j ∈ rest, i < j := fun j hj =>
        (List.pairwise_cons.mp hpair).1 j hj
      have hlen2 : (acc ++ [points.getD i ⟨0, 0⟩]).length ≤ i + 1 := by
        rw [List.length_append]
        simp only [List.length_singleton]
        omega
      obtain ⟨h1, h2⟩ := ih i (acc ++ [points.getD i ⟨0, 0⟩]) hgt2
        (List.pairwise_cons.mp hpair).2 hlen2
      refine ⟨h1, ?_⟩
      rcases h2 with h2 | h2
      · exact Or.inr (by rw [h2]; exact List.mem_cons_self i rest)
      · exact Or.inr (List.mem_cons_of_mem i h2)
    · have hgt2 : ∀ j ∈ rest, prev < j := fun j hj =>
        hgt j (List.mem_cons_of_mem i hj)
      obtain ⟨h1, h2⟩ := ih prev acc hgt2
        (List.pairwise_cons.mp hpair).2 hlen
      refine ⟨h1, ?_⟩
      rcases h2 with h2 | h2
      · exact Or.inl h2
      · exact Or.inr (List.mem_cons_of_mem i h2)

/-- Head of a non-empty list, expressed through `getD`. -/
theorem head?_eq_getD (points : List Point) (h : 0 < points.length) :
    points.head? = some (points.getD 0 ⟨0, 0⟩) := by
  rw [List.head?_eq_getElem?, List.getD_eq_getElem?_getD,
    List.getElem?_eq_getElem h, Option.getD_some]

/-- Last element of a non-empty list, expressed through `getD`. -/
theorem getLast?_eq_getD (points : List Point) (h : 0 < points.length) :
    points.getLast? = some (points.getD (points.length - 1) ⟨0, 0⟩) := by
  have h2 : points.length - 1 < points.length := by omega
  rw [List.getLast?_eq_getElem?, List.getD_eq_getElem?_getD,
    List.getElem?_eq_getElem h2, Option.getD_some]

/-- Vertex reduction keeps the endpoints and never grows the list. -/
theorem reducePoints_spec (points : List Point) (t : ℚ) (h : points ≠ []) :
    (reducePoints points t).head? = points.head? ∧
      (reducePoints points t).getLast? = points.getLast? ∧
        (reducePoints points t).length ≤ points.length ∧
          reducePoints points t ≠ [] := by
  have hlen : 0 < points.length := List.length_pos.mpr h
  have hgt : ∀ j ∈ List.range' 1 (points.length - 1), 0 < j := by
    intro j hj
    have := (List.mem_range'_1.mp hj).1
    omega
  have hpair : List.Pairwise (· < ·) (List.range' 1 (points.length - 1)) :=
    List.pairwise_lt_range' 1 (points.length - 1)
  have hacc0len : ([points.getD 0 ⟨0, 0⟩] : List Point).length ≤ 0 + 1 := by
    simp
  have hacc0last : ([points.getD 0 ⟨0, 0⟩] : List Point).getLast? =
      some (points.getD 0 ⟨0, 0⟩) := rfl
  obtain ⟨hL, hPrev⟩ := reduceAux_length points t
    (List.range' 1 (points.length - 1)) 0 [points.getD 0 ⟨0, 0⟩]
    hgt hpair hacc0len
  have hprevle : (reduceAux points t (List.range' 1 (points.length - 1)) 0
      [points.getD 0 ⟨0, 0⟩]).2 ≤ points.length - 1 := by
    rcases hPrev with h2 | h2
    · omega
    · have := (List.mem_range'_1.mp h2).2
      omega
  obtain ⟨s, hs⟩ := reduceAux_append points t
    (List.range' 1 (points.length - 1)) 0 [points.getD 0 ⟨0, 0⟩]
  have hlast := reduceAux_getLast points t
    (List.range' 1 (points.length - 1)) 0 [points.getD 0 ⟨0, 0⟩] hacc0last
  simp only [reducePoints]
  by_cases hc : (reduceAux points t (List.range' 1 (points.length - 1)) 0
      [points.getD 0 ⟨0, 0⟩]).2 < points.length - 1
  · rw [if_pos hc]
    have hhead : ((reduceAux points t (List.range' 1 (points.length - 1)) 0
        [points.getD 0 ⟨0, 0⟩]).1 ++
          [points.getD (points.length - 1) ⟨0, 0⟩]).head? =
        some (points.getD 0 ⟨0, 0⟩) := by
      rw [hs, List.append_assoc, List.singleton_append, List.head?_cons]
    refine ⟨?_, ?_, ?_, ?_⟩
    · rw [hhead, head?_eq_getD points hlen]
    · rw [List.getLast?_concat, getLast?_eq_getD points hlen]
    · rw [List.length_append, List.length_singleton]
      omega
    · intro hnil
      rw [hnil] at hhead
      simp at hhead
  · rw [if_neg hc]
    have hpe : (reduceAux points t (List.range' 1 (points.length - 1)) 0
        [points.getD 0 ⟨0, 0⟩]).2 = points.length - 1 := by omega
    have hhead : (reduceAux points t (List.range' 1 (points.length - 1)) 0
        [points.getD 0 ⟨0, 0⟩]).1.head? = some (points.getD 0 ⟨0, 0⟩) := by
      rw [hs, List.singleton_append, List.head?_cons]
    refine ⟨?_, ?_, ?_, ?_⟩
    · rw [hhead, head?_eq_getD points hlen]
    · rw [hlast, hpe, getLast?_eq_getD points hlen]
    · omega
    · intro hnil
      rw [hnil] at hhead
      simp at hhead

/-- Setting a marker to `true` never clears an already-set marker. -/
theorem getD_set_true (l : List Bool) (j i : Nat)
    (h : l.getD i false = true) : (l.set j true).getD i false = true := by
  by_cases hij : j = i
  · subst hij
    by_cases hlt : j < l.length
    · rw [List.getD_eq_getElem?_getD, List.getElem?_set_self hlt,
        Option.getD_some]
    · rw [List.set_eq_of_length_le (le_of_not_lt hlt)]
      exact h
  · rw [List.getD_eq_getElem?_getD, List.getElem?_set_ne hij,
      ← List.getD_eq_getElem?_getD]
    exact h

/-- The Douglas–Peucker recursion preserves the marker-array length. -/
theorem simplifyDPStep_length (points : List Point) (t : ℚ) :
    ∀ fuel markers first last,
      (simplifyDPStep points t fuel markers first last).length =
        markers.length := by
  intro fuel
  induction fuel with
  | zero => intro markers first last; rfl
  | succ n ih =>
    intro markers first last
    simp only [simplifyDPStep]
    split
    · split
      · rw [ih, ih, List.length_set]
      · rfl
    · rfl

/-- The Douglas–Peucker recursion only ever sets markers, never clears. -/
theorem simplifyDPStep_mono (points : List Point) (t : ℚ) :
    ∀ fuel markers first last i, markers.getD i false = true →
      (simplifyDPStep points t fuel markers first last).getD i false =
        true := by
  intro fuel
  induction fuel with
  | zero => intro markers first last i h; exact h
  | succ n ih =>
    intro markers first last i h
    simp only [simplifyDPStep]
    split
    · rename_i index maxSqDist heq
      split
      · exact ih _ _ _ _ (ih _ _ _ _ (getD_set_true markers index i h))
      · exact h
    · exact h

/-- The collection loop keeps at most as many points as it is given. -/
theorem maskFilter_length : ∀ (ps : List Point) (ms : List Bool),
    (maskFilter ps ms).length ≤ ps.length := by
  intro ps
  induction ps with
  | nil => intro ms; cases ms <;> simp [maskFilter]
  | cons p ps ih =>
    intro ms
    cases ms with
    | nil => simp [maskFilter]
    | cons m ms =>
      simp only [maskFilter]
      split
      · simpa using Nat.succ_le_succ (ih ms)
      · exact le_trans (ih ms) (Nat.le_succ _)

/-- With the first marker set, the collection loop starts with the first
point. -/
theorem maskFilter_head (p : Point) (ps : List Point) (ms : List Bool)
    (h : ms.getD 0 false = true) :
    (maskFilter (p :: ps) ms).head? = some p := by
  cases ms with
  | nil => simp [List.getD] at h
  | cons m ms =>
    have hm : m = true := by simpa using h
    subst hm
    simp [maskFilter]

/-- With the final marker set (and matching lengths), the collection loop
ends with the last point. -/
theorem maskFilter_getLast : ∀ (ps : List Point) (ms : List Bool),
    ps.length = ms.length → ms.getD (ms.length - 1) false = true →
      ps ≠ [] → (maskFilter ps ms).getLast? = ps.getLast? := by
  intro ps
  induction ps with
  | nil => intro ms _ _ hne; exact absurd rfl hne
  | cons p ps ih =>
    intro ms hlen hlast hne
    cases ms with
    | nil => simp at hlen
    | cons m ms2 =>
      cases ps with
      | nil =>
        have hm0 : ms2.length = 0 := by
          have h2 := hlen
          simp only [List.length_cons, List.length_nil] at h2
          omega
        have hm : ms2 = [] := List.length_eq_zero.mp hm0
        subst hm
        have hm2 : m = true := by simpa using hlast
        subst hm2
        simp [maskFilter]
      | cons q ps2 =>
        have hlen2 : (q :: ps2).length = ms2.length := by simpa using hlen
        have hms2ne : ms2 ≠ [] := by
          intro hnil
          rw [hnil] at hlen2
          simp at hlen2
        have hms2pos : 0 < ms2.length := List.length_pos.mpr hms2ne
        have hlast2 : ms2.getD (ms2.length - 1) false = true := by
          have hidx : (m :: ms2).length - 1 = (ms2.length - 1) + 1 := by
            simp only [List.length_cons]
            omega
          rw [hidx] at hlast
          simpa [List.getD_cons_succ] using hlast
        have hF := ih ms2 hlen2 hlast2 (by simp)
        have hFne : maskFilter (q :: ps2) ms2 ≠ [] := by
          intro hnil
          have hsome : (q :: ps2).getLast?.isSome :=
            List.getLast?_isSome.mpr (by simp)
          rw [hnil] at hF
          rw [← hF] at hsome
          simp at hsome
        obtain ⟨f, F2, hFeq⟩ := List.exists_cons_of_ne_nil hFne
        simp only [maskFilter]
        split
        · rw [hFeq, List.getLast?_cons_cons, ← hFeq, hF,
            List.getLast?_cons_cons]
        · rw [hF, List.getLast?_cons_cons]

/-- Douglas–Peucker keeps the endpoints and never grows the list. -/
theorem simplifyDP_spec (points : List Point) (t : ℚ) (h : points ≠ []) :
    (simplifyDP points t).head? = points.head? ∧
      (simplifyDP points t).getLast? = points.getLast? ∧
        (simplifyDP points t).length ≤ points.length := by
  have hlen : 0 < points.length := List.length_pos.mpr h
  simp only [simplifyDP]
  have hm0len : (((List.replicate points.length false).set 0 true).set
      (points.length - 1) true).length = points.length := by
    simp [List.length_set, List.length_replicate]
  have hm00 : (((List.replicate points.length false).set 0 true).set
      (points.length - 1) true).getD 0 false = true := by
    apply getD_set_true
    rw [List.getD_eq_getElem?_getD, List.getElem?_set_self (by simpa using hlen),
      Option.getD_some]
  have hm0last : (((List.replicate points.length false).set 0 true).set
      (points.length - 1) true).getD (points.length - 1) false = true := by
    have hl2 : points.length - 1 <
        ((List.replicate points.length false).set 0 true).length := by
      simp [List.length_set, List.length_replicate]
      omega
    rw [List.getD_eq_getElem?_getD, List.getElem?_set_self hl2,
      Option.getD_some]
  have hMlen : (simplifyDPStep points t points.length
      (((List.replicate points.length false).set 0 true).set
        (points.length - 1) true) 0 (points.length - 1)).length =
      points.length := by
    rw [simplifyDPStep_length, hm0len]
  have hM0 := simplifyDPStep_mono points t points.length
    (((List.replicate points.length false).set 0 true).set
      (points.length - 1) true) 0 (points.length - 1) 0 hm00
  have hMlast := simplifyDPStep_mono points t points.length
    (((List.replicate points.length false).set 0 true).set
      (points.length - 1) true) 0 (points.length - 1) (points.length - 1)
    hm0last
  refine ⟨?_, ?_, maskFilter_length _ _⟩
  · cases points with
    | nil => exact absurd rfl h
    | cons p ps =>
      rw [maskFilter_head p ps _ hM0, List.head?_cons]
  · apply maskFilter_getLast points _ hMlen.symm _ h
    rw [hMlen]
    exact hMlast

/-- Claim C3: for a non-empty input `simplify` never grows the list and
keeps the first and last points; with tolerance zero (or an empty input)
the input is returned as a copy, element for element. -/
theorem simplify_spec (points : List Point) (t : ℚ) (h : points ≠ []) :
    (simplify points t).length ≤ points.length ∧
      (simplify points t).head? = points.head? ∧
        (simplify points t).getLast? = points.getLast? ∧
          (t = 0 → simplify points t = points) ∧ simplify [] t = [] := by
  have hempty : simplify [] t = [] := by simp [simplify]
  by_cases ht : t = 0
  · subst ht
    have hid : simplify points 0 = points := by simp [simplify]
    rw [hid]
    exact ⟨le_refl _, rfl, rfl, fun _ => rfl, hempty⟩
  · have hval : simplify points t =
        simplifyDP (reducePoints points (t * t)) (t * t) := by
      simp only [simplify]
      rw [if_neg]
      push_neg
      exact ⟨ht, h⟩
    obtain ⟨rh, rl, rlen, rne⟩ := reducePoints_spec points (t * t) h
    obtain ⟨dh, dl, dlen⟩ := simplifyDP_spec (reducePoints points (t * t))
      (t * t) rne
    rw [hval]
    exact ⟨le_trans dlen rlen, by rw [dh, rh], by rw [dl, rl],
      fun h0 => absurd h0 ht, hempty⟩

theorem simplify_spec_witness :
    ([Point.mk 0 0, Point.mk 1 0] ≠ []) ∧
      ((simplify [Point.mk 0 0, Point.mk 1 0] 1).length ≤ 2 ∧
        (simplify [Point.mk 0 0, Point.mk 1 0] 1).head? =
            [Point.mk 0 0, Point.mk 1 0].head? ∧
          (simplify [Point.mk 0 0, Point.mk 1 0] 1).getLast? =
              [Point.mk 0 0, Point.mk 1 0].getLast? ∧
            ((1 : ℚ) = 0 → simplify [Point.mk 0 0, Point.mk 1 0] 1 =
                [Point.mk 0 0, Point.mk 1 0]) ∧
              simplify [] 1 = []) :=
  ⟨by decide, simplify_spec [Point.mk 0 0, Point.mk 1 0] 1 (by decide)⟩

end LeafletTS
